import Mathlib

/-
  Verification of the ga genetic-algorithm engine (package ga).

  The embedding models the two Go sources of the repository:
  ga.go (the two-argument-crossover variant) and the weighted-crossover
  variant (part_000).  float64 is modelled as the real numbers, the
  float64 value -Inf used to initialise the elite fitness as the bottom
  of `WithBot ℝ`, and the shared random source as an explicit stream of
  uniform draws.
-/

namespace GA

/-- Operations of the `Entity` interface of ga.go: fitness, mutation and
two-parent crossover. -/
structure EntityOps (α : Type) where
  fitness : α → ℝ
  mutate : α → α
  crossover : α → α → α

/-- State of the `GA` struct of ga.go.  The working buffer `tentities` and
the random source are handled functionally, so they are not fields here.
`felite` starts at `⊥`, modelling `math.Inf(-1)`. -/
structure GAState (α : Type) where
  n : ℕ
  elite : Option α
  felite : WithBot ℝ
  entities : List α
  fsum : ℝ
  mean : ℝ
  std : ℝ
  std0 : ℝ
  fentities : List ℝ

/-- Accumulator of the single pass of ga.go `fitness()`. -/
structure StatsAcc (α : Type) where
  mean : ℝ
  std2 : ℝ
  elite : Option α
  felite : WithBot ℝ

/-- The loop of ga.go `fitness()`: one pass over the entities computing the
raw fitness list, the running mean and second moment with weights
`k1 = 1/(i+1)`, `k2 = 1 - k1`, and the elite update on strict improvement
(`if m.felite < f`). -/
noncomputable def statsLoop {α : Type} (fit : α → ℝ) : ℕ → StatsAcc α → List α → StatsAcc α × List ℝ
  | _, acc, [] => (acc, [])
  | i, acc, x :: rest =>
    let f := fit x
    let k1 : ℝ := 1 / (i + 1)
    let k2 : ℝ := 1 - k1
    let acc' : StatsAcc α :=
      { mean := k1 * f + k2 * acc.mean
        std2 := k1 * f * f + k2 * acc.std2
        elite := if acc.felite < (f : WithBot ℝ) then some x else acc.elite
        felite := if acc.felite < (f : WithBot ℝ) then (f : WithBot ℝ) else acc.felite }
    let r := statsLoop fit (i + 1) acc' rest
    (r.1, f :: r.2)

/-- Population mean E[f] of a list of fitness values. -/
noncomputable def meanOf (fs : List ℝ) : ℝ := fs.sum / fs.length

/-- Population second moment E[f²]. -/
noncomputable def sqMeanOf (fs : List ℝ) : ℝ := (fs.map fun f => f * f).sum / fs.length

/-- Population variance E[f²] − E[f]². -/
noncomputable def varOf (fs : List ℝ) : ℝ := sqMeanOf fs - meanOf fs * meanOf fs

/-- The standard-deviation defaulting rule of ga.go `fitness()`: square root
of the variance when it is positive, otherwise 1. -/
noncomputable def stdOf (fs : List ℝ) : ℝ :=
  if 0 < varOf fs then Real.sqrt (varOf fs) else 1

/-- ga.go `sigmoid()`: logistic rescale of each raw fitness value into a
selection weight. -/
noncomputable def sigmoidList (mean std : ℝ) (fs : List ℝ) : List ℝ :=
  fs.map fun f => 1 / (1 + Real.exp ((mean - f) / std))

/-- ga.go `fitness()` followed by `sigmoid()`: recompute the raw fitness
cache, the statistics, the elite, then the selection weights and their sum,
all from the current population. -/
noncomputable def fitnessStep {α : Type} (ops : EntityOps α) (m : GAState α) : GAState α :=
  let r := statsLoop ops.fitness 0 ⟨0, 0, m.elite, m.felite⟩ m.entities
  let mean := r.1.mean
  let std2 := r.1.std2 - mean * mean
  let std := if 0 < std2 then Real.sqrt std2 else 1
  let ws := sigmoidList mean std r.2
  { m with elite := r.1.elite, felite := r.1.felite, mean := mean, std := std,
           fentities := ws, fsum := ws.sum }

/-- ga.go `New`: build `n` entities from the factory (one call per slot),
run the statistics pass, and capture the baseline diversity `std0`.  The
source performs no validation of `n`. -/
noncomputable def New {α : Type} (ops : EntityOps α) (n : ℕ) (g : ℕ → α) : GAState α :=
  let m0 : GAState α :=
    { n := n, elite := none, felite := ⊥, entities := (List.range n).map g,
      fsum := 0, mean := 0, std := 0, std0 := 0, fentities := List.replicate n 0 }
  let m1 := fitnessStep ops m0
  { m1 with std0 := m1.std }

/-- Sorting of the two uniform draws in `select2`: swap so the first is the
smaller. -/
noncomputable def sortPair (rx ry : ℝ) : ℝ × ℝ :=
  if rx > ry then (ry, rx) else (rx, ry)

/-- The scan loop of ga.go `select2`, over `(entity, weight)` pairs.  The
"still selecting x" phase is tracked by comparing `x` against the first
population member, exactly as the source's `x == m.entities[0]`. -/
noncomputable def s2loopGo {α : Type} [DecidableEq α] (first : α) :
    ℝ → ℝ → ℝ → α → α → List (α × ℝ) → α × α
  | _, _, _, x, y, [] => (x, y)
  | f0, d, r2, x, y, (e, f) :: rest =>
    if f0 ≤ f then
      if x = first then s2loopGo first (f0 + d - f * r2) d r2 e y rest
      else (x, e)
    else s2loopGo first (f0 - f) d r2 x y rest

/-- ga.go `select2`, given the two uniform draws.  `x` and `y` start as the
first and last population members (the fallback values). -/
noncomputable def select2Go {α : Type} [Inhabited α] [DecidableEq α] (ents : List α)
    (ws : List ℝ) (fsum r1 r2 : ℝ) : α × α :=
  let p := sortPair r1 r2
  s2loopGo ents.headI (fsum * p.1) (fsum * (p.2 - p.1)) p.2
    ents.headI (ents.getLastD default) (ents.zip ws)

/-- The mutation probability of ga.go `Next`: the direct control law
`pm = exp(-10·std/std0)`. -/
noncomputable def pmDirect (std std0 : ℝ) : ℝ := Real.exp (-10 * std / std0)

/-- The body of the offspring loop of ga.go `Next` for one slot, with that
slot's three uniform draws: two for `select2`, one for the mutation coin. -/
noncomputable def offspring {α : Type} [Inhabited α] [DecidableEq α] (ops : EntityOps α)
    (m : GAState α) (r : ℝ × ℝ × ℝ) : α :=
  let xy := select2Go m.entities m.fentities m.fsum r.1 r.2.1
  let z := ops.crossover xy.1 xy.2
  if r.2.2 < pmDirect m.std m.std0 then ops.mutate z else z

/-- The full offspring buffer (`tentities`) built by one `Next` call: slot
`i` reads only the pre-step state `m` and its own draws. -/
noncomputable def nextPop {α : Type} [Inhabited α] [DecidableEq α] (ops : EntityOps α)
    (m : GAState α) (rs : ℕ → ℝ × ℝ × ℝ) : List α :=
  (List.range m.n).map fun i => offspring ops m (rs i)

/-- ga.go `Next`: fill the working buffer from the current population, swap
it in, then recompute statistics and selection weights. -/
noncomputable def Next {α : Type} [Inhabited α] [DecidableEq α] (ops : EntityOps α)
    (m : GAState α) (rs : ℕ → ℝ × ℝ × ℝ) : GAState α :=
  fitnessStep ops { m with entities := nextPop ops m rs }

/-- The loop of ga.go `Evolve`, with fuel standing for `max − j` and the
random stream indexed by generation.  `i` is the loop's stagnation counter:
the body resets it to 0 when the elite changed and the for-post-statement
then increments it, so the merged update is 1 on change and `i+1` otherwise.
The last component counts the `Next` calls performed. -/
noncomputable def evolveLoop {α : Type} [Inhabited α] [DecidableEq α] (ops : EntityOps α)
    (k : ℤ) (rss : ℕ → ℕ → ℝ × ℝ × ℝ) :
    ℕ → ℤ → Option α → GAState α → ℕ → GAState α × Option α × ℤ × ℕ
  | gen, i, elite, m, fuel + 1 =>
    if i < k then
      let m' := Next ops m (rss gen)
      let x := m'.elite
      if x ≠ elite then
        let r := evolveLoop ops k rss (gen + 1) 1 x m' fuel
        (r.1, r.2.1, r.2.2.1, r.2.2.2 + 1)
      else
        let r := evolveLoop ops k rss (gen + 1) (i + 1) elite m' fuel
        (r.1, r.2.1, r.2.2.1, r.2.2.2 + 1)
    else (m, elite, i, 0)
  | _, i, elite, m, 0 => (m, elite, i, 0)

/-- ga.go `Evolve(k, max)`: run the loop from counter 0 and the current
elite; return the final state, the loop's elite variable, the converged
flag `i >= k`, and the number of generation steps performed. -/
noncomputable def Evolve {α : Type} [Inhabited α] [DecidableEq α] (ops : EntityOps α)
    (m : GAState α) (rss : ℕ → ℕ → ℝ × ℝ × ℝ) (k mx : ℤ) :
    GAState α × Option α × Bool × ℕ :=
  let r := evolveLoop ops k rss 0 0 m.elite m mx.toNat
  (r.1, r.2.1, decide (k ≤ r.2.2.1), r.2.2.2)

/-- The smoothed mutation-probability update of the weighted variant's
`adjust`: multiply by the relaxation factor, then clamp to
`[0.0001, 0.1]`; only applied once the baseline is positive. -/
noncomputable def pmUpdate (pm std base : ℝ) : ℝ :=
  if 0 < base then
    let p := pm * (0.2 * Real.exp (-5 * std / base) + 0.9)
    if p > 0.1 then 0.1 else if p < 0.0001 then 0.0001 else p
  else pm

/-- The scan loop of the weighted variant's `select2`: the phase is the
explicit flag `isx`, and the selected weights `wx`, `wy` are carried for
the blend weight. -/
noncomputable def s2loopW {α : Type} :
    ℝ → ℝ → ℝ → Bool → α → α → ℝ → ℝ → List (α × ℝ) → α × α × ℝ × ℝ
  | _, _, _, _, x, y, wx, wy, [] => (x, y, wx, wy)
  | fz, d, ry, isx, x, y, wx, wy, (e, f) :: rest =>
    if fz ≤ f then
      if isx then s2loopW (fz + d - f * ry) d ry false e y f wy rest
      else (x, e, wx, f)
    else s2loopW (fz - f) d ry isx x y wx wy rest

/-- The weighted variant's `select2` before the final blend division:
parents plus the two recorded weights. -/
noncomputable def select2WFull {α : Type} [Inhabited α] (ents : List α) (ws : List ℝ)
    (fsum rx ry : ℝ) : α × α × ℝ × ℝ :=
  let p := sortPair rx ry
  s2loopW (fsum * p.1) (fsum * (p.2 - p.1)) p.2 true
    ents.headI (ents.getLastD default) 0 0 (ents.zip ws)

/-- The weighted variant's `select2`: both parents and the blend weight
`wx / (wx + wy)`. -/
noncomputable def select2W {α : Type} [Inhabited α] (ents : List α) (ws : List ℝ)
    (fsum rx ry : ℝ) : α × α × ℝ :=
  let r := select2WFull ents ws fsum rx ry
  (r.1, r.2.1, r.2.2.1 / (r.2.2.1 + r.2.2.2))

/-- Spec reading of one phase of the roulette scan: the first position whose
running remainder has dropped to or below that position's weight; returns
the selected pair, the remainder at selection, and the rest of the list. -/
noncomputable def findHit {α : Type} : ℝ → List (α × ℝ) → Option ((α × ℝ) × ℝ × List (α × ℝ))
  | _, [] => none
  | fz, (e, f) :: rest => if fz ≤ f then some ((e, f), fz, rest) else findHit (fz - f) rest

/-- Spec description of the weighted `select2` (claim C4): sort the draws,
select x at the first index where the running remainder of target `fsum·r1`
drops to or below the weight, re-base the target by `+ fsum·(r2−r1) − w_x·r2`,
continue scanning for y; fall back to the first member for x and the last
for y when the scan ends unsatisfied. -/
noncomputable def select2Described {α : Type} [Inhabited α] (ents : List α) (ws : List ℝ)
    (fsum rx ry : ℝ) : α × α × ℝ × ℝ :=
  let p := sortPair rx ry
  let first := ents.headI
  let last := ents.getLastD default
  match findHit (fsum * p.1) (ents.zip ws) with
  | none => (first, last, 0, 0)
  | some ((ex, wx), fz, rest) =>
    match findHit (fz + fsum * (p.2 - p.1) - wx * p.2) rest with
    | none => (ex, last, wx, 0)
    | some ((ey, wy), _, _) => (ex, ey, wx, wy)

/-- Remainder of target `fz` after scanning past the first `k` weights. -/
noncomputable def scanRem (fz : ℝ) (ws : List ℝ) (k : ℕ) : ℝ := fz - (ws.take k).sum

/-- The between-generations cache-consistency invariant: the stored mean,
standard deviation, selection weights and weight sum agree with what the
statistics pass and the logistic rescale compute from the current
population. -/
noncomputable def Consistent {α : Type} (ops : EntityOps α) (m : GAState α) : Prop :=
  m.mean = meanOf (m.entities.map ops.fitness) ∧
  m.std = stdOf (m.entities.map ops.fitness) ∧
  m.fentities = sigmoidList m.mean m.std (m.entities.map ops.fitness) ∧
  m.fsum = m.fentities.sum

/-- Trivial entity operations on `Unit`, used for concrete runs. -/
noncomputable def opsU : EntityOps Unit := ⟨fun _ => 0, fun _ => (), fun _ _ => ()⟩

/-- A concrete engine state over `Unit` with an empty population. -/
def mU : GAState Unit := ⟨0, none, ⊥, [], 0, 0, 0, 0, []⟩

/-- A concrete random stream for the evolution driver. -/
def rssU : ℕ → ℕ → ℝ × ℝ × ℝ := fun _ _ => (0, 0, 0)

/-- While the counter plus the remaining fuel stay below `k`, the `Evolve`
loop consumes all its fuel (performs one `Next` per unit of fuel) and ends
with its counter still below `k`. -/
theorem evolveLoop_runs {α : Type} [Inhabited α] [DecidableEq α] (ops : EntityOps α)
    (k : ℤ) (rss : ℕ → ℕ → ℝ × ℝ × ℝ) :
    ∀ (fuel : ℕ) (gen : ℕ) (i : ℤ) (elite : Option α) (m : GAState α),
      0 ≤ i → i + fuel < k →
      (evolveLoop ops k rss gen i elite m fuel).2.2.2 = fuel ∧
      (evolveLoop ops k rss gen i elite m fuel).2.2.1 < k := by
  intro fuel
  induction fuel with
  | zero =>
    intro gen i elite m h0 hk
    simpa [evolveLoop] using by push_cast at hk; omega
  | succ fuel ih =>
    intro gen i elite m h0 hk
    have hik : i < k := by push_cast at hk; omega
    rw [evolveLoop]
    rw [if_pos hik]
    by_cases hx : (Next ops m (rss gen)).elite ≠ elite
    · rw [if_pos hx]
      have h := ih (gen + 1) 1 (Next ops m (rss gen)).elite (Next ops m (rss gen))
        (by norm_num) (by push_cast at hk ⊢; omega)
      exact ⟨by simp [h.1], h.2⟩
    · rw [if_neg hx]
      have h := ih (gen + 1) (i + 1) elite (Next ops m (rss gen))
        (by omega) (by push_cast at hk ⊢; omega)
      exact ⟨by simp [h.1], h.2⟩

/-- Claim C1 (amended): for every `max ≥ 0` and `k` strictly greater than
`max`, `Evolve(k, max)` performs exactly `max` generation steps and reports
`converged = false`.  (As literally stated the claim also covers `k = max`,
where it fails: see the counterexample.) -/
theorem evolve_k_gt_max_runs_max_steps {α : Type} [Inhabited α] [DecidableEq α]
    (ops : EntityOps α) (m : GAState α) (rss : ℕ → ℕ → ℝ × ℝ × ℝ) (k mx : ℤ)
    (hmx : 0 ≤ mx) (hk : mx < k) :
    (Evolve ops m rss k mx).2.2.2 = mx.toNat ∧
    (Evolve ops m rss k mx).2.2.1 = false := by
  have htn : ((mx.toNat : ℤ)) = mx := Int.toNat_of_nonneg hmx
  have h := evolveLoop_runs ops k rss mx.toNat 0 0 m.elite m le_rfl (by omega)
  refine ⟨by simpa [Evolve] using h.1, ?_⟩
  have : ¬ (k ≤ (evolveLoop ops k rss 0 0 m.elite m mx.toNat).2.2.1) := by
    exact not_le.mpr h.2
  simpa [Evolve] using this

/-- Witness for the amended claim C1 at `k = 2`, `max = 1`. -/
theorem evolve_k_gt_max_witness :
    (0 : ℤ) ≤ 1 ∧ (1 : ℤ) < 2 ∧
    (Evolve opsU mU rssU 2 1).2.2.2 = (1 : ℤ).toNat ∧
    (Evolve opsU mU rssU 2 1).2.2.1 = false := by
  have h := evolve_k_gt_max_runs_max_steps opsU mU rssU 2 1 (by norm_num) (by norm_num)
  exact ⟨by norm_num, by norm_num, h.1, h.2⟩

/-- Counterexample to claim C1 as stated: with `k = max = 1` (so `k ≥ max`),
`Evolve` reports `converged = true` — the loop's counter is 1 after the
single iteration whether or not the elite changed, and `1 ≥ k`. -/
theorem evolve_k_eq_max_converged_true :
    (Evolve opsU mU rssU 1 1).2.2.1 = true := by
  have ht : ((1 : ℤ).toNat) = 1 := rfl
  rw [Evolve]
  rw [ht, evolveLoop]
  rw [if_pos (by norm_num : (0 : ℤ) < 1)]
  by_cases hx : (Next opsU mU (rssU 0)).elite ≠ mU.elite
  · rw [if_pos hx]
    simp [evolveLoop]
  · rw [if_neg hx]
    simp [evolveLoop]

/-- Claim C10: with `k ≤ 0` the driver performs zero generation steps and
reports `converged = true` with the construction-time elite and untouched
state; with `max ≤ 0` and `k > 0` it performs zero steps and reports
`converged = false`. -/
theorem evolve_degenerate_bounds {α : Type} [Inhabited α] [DecidableEq α]
    (ops : EntityOps α) (m : GAState α) (rss : ℕ → ℕ → ℝ × ℝ × ℝ) (k mx : ℤ) :
    (k ≤ 0 → Evolve ops m rss k mx = (m, m.elite, true, 0)) ∧
    (mx ≤ 0 → 0 < k → Evolve ops m rss k mx = (m, m.elite, false, 0)) := by
  constructor
  · intro hk
    have hnk : ¬ ((0 : ℤ) < k) := by omega
    cases hmt : mx.toNat with
    | zero =>
      simp [Evolve, hmt, evolveLoop]
      exact hk
    | succ s =>
      rw [Evolve]
      rw [hmt, evolveLoop, if_neg hnk]
      simp
      exact hk
  · intro hmx hk
    have hmt : mx.toNat = 0 := Int.toNat_of_nonpos hmx
    simp [Evolve, hmt, evolveLoop]
    omega

/-- Witness for claim C10, at `k = −1, max = 5` and at `k = 1, max = 0`. -/
theorem evolve_degenerate_bounds_witness :
    ((-1 : ℤ) ≤ 0 ∧ Evolve opsU mU rssU (-1) 5 = (mU, mU.elite, true, 0)) ∧
    ((0 : ℤ) ≤ 0 ∧ (0 : ℤ) < 1 ∧ Evolve opsU mU rssU 1 0 = (mU, mU.elite, false, 0)) := by
  refine ⟨⟨by norm_num, (evolve_degenerate_bounds opsU mU rssU (-1) 5).1 (by norm_num)⟩,
    ⟨le_refl 0, by norm_num, (evolve_degenerate_bounds opsU mU rssU 1 0).2 (le_refl 0) (by norm_num)⟩⟩

/-- Fitness-by-value entity operations over `ℕ`, used for concrete runs. -/
def opsN : EntityOps ℕ := ⟨fun x => (x : ℝ), id, fun x _ => x⟩

/-- Claim C2 (amended): `New` performs no validation of the population
size: for every `n` — in particular `n < 2` — and every factory, it returns
a fully constructed engine with population size `n`. -/
theorem new_accepts_any_n {α : Type} (ops : EntityOps α) (n : ℕ) (g : ℕ → α) :
    (New ops n g).n = n ∧ (New ops n g).entities.length = n := by
  constructor <;> simp [New, fitnessStep]

/-- Counterexample to claim C2 as stated: `New(1, g)` (population size 1,
below the claimed minimum of 2) does not fail — it returns a normal engine
whose population is the single constructed entity and whose elite fitness
has been computed from it. -/
theorem new_n1_returns_engine :
    (New opsN 1 fun _ => 5).n = 1 ∧
    (New opsN 1 fun _ => 5).entities = [5] ∧
    (New opsN 1 fun _ => 5).felite = ((5 : ℝ) : WithBot ℝ) := by
  refine ⟨rfl, by simp [New, fitnessStep], ?_⟩
  norm_num [New, fitnessStep, statsLoop, opsN, WithBot.bot_lt_coe]

/-- The raw-fitness list produced by the statistics loop is the fitness of
each entity in order. -/
theorem statsLoop_snd {α : Type} (fit : α → ℝ) :
    ∀ (l : List α) (i : ℕ) (acc : StatsAcc α),
      (statsLoop fit i acc l).2 = l.map fit := by
  intro l
  induction l with
  | nil => intro i acc; simp [statsLoop]
  | cons x rest ih => intro i acc; simp [statsLoop, ih]

/-- The running-mean recurrence `mean ← k1·f + k2·mean` with `k1 = 1/(i+1)`
computes the batch mean: starting at index `i` with accumulator `a`, the
final value is `(i·a + Σ fs) / (i + |fs|)`. -/
theorem statsLoop_mean {α : Type} (fit : α → ℝ) :
    ∀ (l : List α) (i : ℕ) (acc : StatsAcc α), 0 < i + l.length →
      (statsLoop fit i acc l).1.mean
        = ((i : ℝ) * acc.mean + (l.map fit).sum) / ((i : ℝ) + l.length) := by
  intro l
  induction l with
  | nil =>
    intro i acc hi
    have hne : (i : ℝ) ≠ 0 := by
      simp at hi
      positivity
    simp [statsLoop]
    field_simp
  | cons x rest ih =>
    intro i acc hi
    have h1 : ((i : ℝ) + 1) ≠ 0 := by positivity
    rw [statsLoop]
    simp only [List.map_cons, List.sum_cons, List.length_cons]
    rw [ih (i + 1) _ (by omega)]
    push_cast
    field_simp
    ring

/-- Same computation for the second moment: the recurrence on `f·f` yields
`(i·a + Σ fs²) / (i + |fs|)`. -/
theorem statsLoop_std2 {α : Type} (fit : α → ℝ) :
    ∀ (l : List α) (i : ℕ) (acc : StatsAcc α), 0 < i + l.length →
      (statsLoop fit i acc l).1.std2
        = ((i : ℝ) * acc.std2 + (l.map fun x => fit x * fit x).sum) / ((i : ℝ) + l.length) := by
  intro l
  induction l with
  | nil =>
    intro i acc hi
    have hne : (i : ℝ) ≠ 0 := by
      simp at hi
      positivity
    simp [statsLoop]
    field_simp
  | cons x rest ih =>
    intro i acc hi
    have h1 : ((i : ℝ) + 1) ≠ 0 := by positivity
    rw [statsLoop]
    simp only [List.map_cons, List.sum_cons, List.length_cons]
    rw [ih (i + 1) _ (by omega)]
    push_cast
    field_simp
    ring

/-- The elite fitness never decreases along the statistics loop. -/
theorem statsLoop_felite_mono {α : Type} (fit : α → ℝ) :
    ∀ (l : List α) (i : ℕ) (acc : StatsAcc α),
      acc.felite ≤ (statsLoop fit i acc l).1.felite := by
  intro l
  induction l with
  | nil => intro i acc; simp [statsLoop]
  | cons x rest ih =>
    intro i acc
    rw [statsLoop]
    refine le_trans ?_ (ih (i + 1) _)
    by_cases h : acc.felite < ((fit x : ℝ) : WithBot ℝ)
    · simp [h, le_of_lt h]
    · simp [h]

/-- The stored elite changes along the statistics loop only if some entity
strictly exceeds the incoming elite fitness. -/
theorem statsLoop_elite_stable {α : Type} (fit : α → ℝ) :
    ∀ (l : List α) (i : ℕ) (acc : StatsAcc α),
      (statsLoop fit i acc l).1.elite ≠ acc.elite →
      ∃ x ∈ l, acc.felite < ((fit x : ℝ) : WithBot ℝ) := by
  intro l
  induction l with
  | nil => intro i acc h; simp [statsLoop] at h
  | cons x rest ih =>
    intro i acc
    by_cases h : acc.felite < ((fit x : ℝ) : WithBot ℝ)
    · intro _
      exact ⟨x, List.mem_cons_self x rest, h⟩
    · intro hne
      rw [statsLoop] at hne
      simp only [h, if_false] at hne
      obtain ⟨y, hy, hlt⟩ := ih (i + 1) ⟨_, _, acc.elite, acc.felite⟩ hne
      exact ⟨y, List.mem_cons_of_mem x hy, hlt⟩

/-- Claim C3: across any `Next()` call the elite fitness never decreases,
and the stored elite entity is replaced only when some member of the new
population strictly exceeds the previous elite fitness — a tie never
replaces the elite. -/
theorem next_elite_monotone {α : Type} [Inhabited α] [DecidableEq α]
    (ops : EntityOps α) (m : GAState α) (rs : ℕ → ℝ × ℝ × ℝ) :
    m.felite ≤ (Next ops m rs).felite ∧
    ((Next ops m rs).elite ≠ m.elite →
      ∃ e ∈ nextPop ops m rs, m.felite < ((ops.fitness e : ℝ) : WithBot ℝ)) := by
  constructor
  · have h := statsLoop_felite_mono ops.fitness (nextPop ops m rs) 0
      ⟨0, 0, m.elite, m.felite⟩
    simpa [Next, fitnessStep] using h
  · intro hne
    have h : (statsLoop ops.fitness 0
        (⟨0, 0, m.elite, m.felite⟩ : StatsAcc α) (nextPop ops m rs)).1.elite ≠ m.elite := by
      simpa [Next, fitnessStep] using hne
    exact statsLoop_elite_stable ops.fitness (nextPop ops m rs) 0 _ h

/-- Constant-7 crossover operations over `ℕ`: every offspring has fitness 7. -/
def opsW3 : EntityOps ℕ := ⟨fun x => (x : ℝ), id, fun _ _ => 7⟩

/-- A concrete two-member engine state with elite fitness 1. -/
noncomputable def mW3 : GAState ℕ :=
  ⟨2, some 1, ((1 : ℝ) : WithBot ℝ), [0, 1], 1, 0, 1, 1, [1 / 2, 1 / 2]⟩

/-- A concrete per-slot random stream. -/
def rsW3 : ℕ → ℝ × ℝ × ℝ := fun _ => (0, 0, 0)

/-- Witness for claim C3: a concrete `Next` call in which the elite is
replaced, exhibiting a strictly better member of the new population. -/
theorem next_elite_monotone_witness :
    (Next opsW3 mW3 rsW3).elite ≠ mW3.elite ∧
    ∃ e ∈ nextPop opsW3 mW3 rsW3, mW3.felite < ((opsW3.fitness e : ℝ) : WithBot ℝ) := by
  have hpop : nextPop opsW3 mW3 rsW3 = [7, 7] := by
    simp [nextPop, offspring, opsW3, mW3, List.range_succ]
  have hne : (Next opsW3 mW3 rsW3).elite ≠ mW3.elite := by
    rw [Next, fitnessStep]
    simp only [hpop]
    norm_num [statsLoop, mW3, opsW3, WithBot.coe_lt_coe]
  exact ⟨hne, (next_elite_monotone opsW3 mW3 rsW3).2 hne⟩

/-- The mean computed by the statistics pass is the batch mean of the raw
fitness values of the current population. -/
theorem fitnessStep_mean_eq {α : Type} (ops : EntityOps α) (m : GAState α) :
    (fitnessStep ops m).mean = meanOf (m.entities.map ops.fitness) := by
  cases hl : m.entities with
  | nil => simp [fitnessStep, hl, statsLoop, meanOf]
  | cons x rest =>
    have h := statsLoop_mean ops.fitness (x :: rest) 0
      (⟨0, 0, m.elite, m.felite⟩ : StatsAcc α) (by simp)
    simp only [fitnessStep, hl]
    rw [h]
    simp [meanOf]

/-- The standard deviation computed by the statistics pass equals the
defaulting rule applied to the batch variance E[f²] − E[f]². -/
theorem fitnessStep_std_eq {α : Type} (ops : EntityOps α) (m : GAState α) :
    (fitnessStep ops m).std = stdOf (m.entities.map ops.fitness) := by
  cases hl : m.entities with
  | nil => simp [fitnessStep, hl, statsLoop, stdOf, varOf, meanOf, sqMeanOf]
  | cons x rest =>
    have hm := statsLoop_mean ops.fitness (x :: rest) 0
      (⟨0, 0, m.elite, m.felite⟩ : StatsAcc α) (by simp)
    have hs := statsLoop_std2 ops.fitness (x :: rest) 0
      (⟨0, 0, m.elite, m.felite⟩ : StatsAcc α) (by simp)
    simp only [fitnessStep, hl]
    rw [hm, hs]
    have hmap : ((x :: rest).map fun z => ops.fitness z * ops.fitness z)
        = ((x :: rest).map ops.fitness).map fun f => f * f := by
      simp [List.map_map, Function.comp]
    rw [hmap]
    simp [stdOf, varOf, meanOf, sqMeanOf]

/-- Claim C5: the standard deviation used downstream is
`sqrt (E[f²] − E[f]²)` when that variance is strictly positive and defaults
to exactly 1 when it is not — in particular whenever all fitness values are
equal. -/
theorem fitnessStep_std_rule {α : Type} (ops : EntityOps α) (m : GAState α) (c : ℝ) :
    ((0 < varOf (m.entities.map ops.fitness) →
        (fitnessStep ops m).std = Real.sqrt (varOf (m.entities.map ops.fitness))) ∧
      (varOf (m.entities.map ops.fitness) ≤ 0 → (fitnessStep ops m).std = 1)) ∧
    ((∀ x ∈ m.entities, ops.fitness x = c) → (fitnessStep ops m).std = 1) := by
  have hstd := fitnessStep_std_eq ops m
  constructor
  · constructor
    · intro hv
      rw [hstd, stdOf, if_pos hv]
    · intro hv
      rw [hstd, stdOf, if_neg (by linarith)]
  · intro hc
    have hall : ∀ f ∈ m.entities.map ops.fitness, f = c := by
      intro f hf
      obtain ⟨x, hx, rfl⟩ := List.mem_map.mp hf
      exact hc x hx
    have hsum : (m.entities.map ops.fitness).sum
        = (m.entities.map ops.fitness).length • c :=
      List.sum_eq_card_nsmul _ c hall
    have hsq : ((m.entities.map ops.fitness).map fun f => f * f).sum
        = ((m.entities.map ops.fitness).map fun f => f * f).length • (c * c) := by
      refine List.sum_eq_card_nsmul _ (c * c) ?_
      intro f hf
      obtain ⟨z, hz, rfl⟩ := List.mem_map.mp hf
      rw [hall z hz]
    have hv : varOf (m.entities.map ops.fitness) = 0 ∨
        varOf (m.entities.map ops.fitness) ≤ 0 := by
      cases hl : m.entities.map ops.fitness with
      | nil => left; simp [varOf, meanOf, sqMeanOf]
      | cons f fs =>
        left
        have hlen : ((f :: fs).length : ℝ) ≠ 0 := by
          simp only [List.length_cons]
          positivity
        rw [hl] at hsum hsq
        simp only [varOf, meanOf, sqMeanOf, hsum, hsq, List.length_map,
          nsmul_eq_mul]
        field_simp
    rw [hstd, stdOf]
    rcases hv with hv | hv
    · rw [if_neg (by rw [hv]; exact lt_irrefl 0)]
    · rw [if_neg (by linarith)]

/-- A concrete constant-fitness engine state over `ℕ`. -/
noncomputable def mW5 : GAState ℕ := ⟨2, none, ⊥, [2, 2], 0, 0, 0, 0, [0, 0]⟩

/-- Witness for claim C5: a population with all-equal fitness resolves the
standard deviation to 1. -/
theorem fitnessStep_std_rule_witness :
    (∀ x ∈ mW5.entities, opsN.fitness x = (2 : ℝ)) ∧ (fitnessStep opsN mW5).std = 1 := by
  have hall : ∀ x ∈ mW5.entities, opsN.fitness x = (2 : ℝ) := by
    intro x hx
    simp only [mW5, List.mem_cons, List.not_mem_nil, or_false] at hx
    rcases hx with h | h <;> simp [opsN, h]
  exact ⟨hall, (fitnessStep_std_rule opsN mW5 2).2 hall⟩

/-- Each logistic weight lies strictly between 0 and 1. -/
theorem sigmoid_mem_unit (mean std f : ℝ) :
    0 < 1 / (1 + Real.exp ((mean - f) / std)) ∧
      1 / (1 + Real.exp ((mean - f) / std)) < 1 := by
  have he : 0 < Real.exp ((mean - f) / std) := Real.exp_pos _
  constructor
  · positivity
  · rw [div_lt_one (by positivity)]
    linarith

/-- Claim C6: after the statistics pass, the weight cache is exactly the
logistic rescale of the raw fitness of the current population (the raw
values are overwritten), every stored weight lies in (0,1), and `fsum` is
the sum of the `n` weights, strictly positive when the population is
nonempty. -/
theorem fitnessStep_weights {α : Type} (ops : EntityOps α) (m : GAState α) :
    (fitnessStep ops m).fentities
      = sigmoidList (fitnessStep ops m).mean (fitnessStep ops m).std
          (m.entities.map ops.fitness) ∧
    (∀ w ∈ (fitnessStep ops m).fentities, 0 < w ∧ w < 1) ∧
    (fitnessStep ops m).fsum = ((fitnessStep ops m).fentities).sum ∧
    (m.entities ≠ [] → 0 < (fitnessStep ops m).fsum) := by
  have hsnd := statsLoop_snd ops.fitness m.entities 0
    (⟨0, 0, m.elite, m.felite⟩ : StatsAcc α)
  have hmem : ∀ w ∈ (fitnessStep ops m).fentities, 0 < w ∧ w < 1 := by
    intro w hw
    simp only [fitnessStep, sigmoidList, List.mem_map] at hw
    obtain ⟨f, _, rfl⟩ := hw
    exact sigmoid_mem_unit _ _ f
  refine ⟨?_, hmem, rfl, ?_⟩
  · simp only [fitnessStep, hsnd]
  · intro hne
    have hlen : (fitnessStep ops m).fentities ≠ [] := by
      simp only [fitnessStep, sigmoidList, hsnd]
      simp [hne]
    have hpos : ∀ w ∈ (fitnessStep ops m).fentities, 0 < w := fun w hw => (hmem w hw).1
    exact List.sum_pos _ hpos hlen

/-- Witness for claim C6: a nonempty concrete population has a strictly
positive weight sum. -/
theorem fitnessStep_weights_witness :
    mW5.entities ≠ [] ∧ 0 < (fitnessStep opsN mW5).fsum := by
  have hne : mW5.entities ≠ [] := by simp [mW5]
  exact ⟨hne, (fitnessStep_weights opsN mW5).2.2.2 hne⟩

/-- Claim C7: the mutation probability stays in (0, 1] in both control-law
variants: the engine's standard deviation is always strictly positive, the
direct law `exp(−10·std/std0)` then lies in (0, 1], and the smoothed
multiplicative-clamped law preserves `0 < pm ≤ 1`. -/
theorem pm_in_unit_interval {α : Type} :
    (∀ (ops : EntityOps α) (m : GAState α), 0 < (fitnessStep ops m).std) ∧
    (∀ s s0 : ℝ, 0 < s → 0 < s0 → 0 < pmDirect s s0 ∧ pmDirect s s0 ≤ 1) ∧
    (∀ pm s base : ℝ, 0 < pm → pm ≤ 1 →
      0 < pmUpdate pm s base ∧ pmUpdate pm s base ≤ 1) := by
  refine ⟨?_, ?_, ?_⟩
  · intro ops m
    rw [fitnessStep_std_eq, stdOf]
    split
    · next hv => exact Real.sqrt_pos.mpr hv
    · exact one_pos
  · intro s s0 hs hs0
    rw [pmDirect]
    refine ⟨Real.exp_pos _, ?_⟩
    rw [Real.exp_le_one_iff]
    have h1 : -10 * s ≤ 0 := by linarith
    exact div_nonpos_of_nonpos_of_nonneg h1 (le_of_lt hs0)
  · intro pm s base hpm hpm1
    simp only [pmUpdate]
    split
    · next hb =>
      have hfac : 0 < 0.2 * Real.exp (-5 * s / base) + 0.9 := by
        have := Real.exp_pos (-5 * s / base)
        linarith
      have hp : 0 < pm * (0.2 * Real.exp (-5 * s / base) + 0.9) :=
        mul_pos hpm hfac
      split
      · constructor <;> norm_num
      · split
        · constructor <;> norm_num
        · next hc1 hc2 =>
          push_neg at hc1
          exact ⟨hp, le_trans hc1 (by norm_num)⟩
    · exact ⟨hpm, hpm1⟩

/-- Witness for claim C7 at concrete diversity values and a concrete pm. -/
theorem pm_in_unit_interval_witness :
    (0 : ℝ) < 1 ∧
    (0 < pmDirect 1 1 ∧ pmDirect 1 1 ≤ 1) ∧
    (0 < pmUpdate 0.1 1 1 ∧ pmUpdate 0.1 1 1 ≤ 1) := by
  refine ⟨one_pos, ?_, ?_⟩
  · exact (pm_in_unit_interval (α := Unit)).2.1 1 1 one_pos one_pos
  · exact (pm_in_unit_interval (α := Unit)).2.2 0.1 1 1 (by norm_num) (by norm_num)

/-- The statistics pass leaves the population itself unchanged. -/
theorem fitnessStep_entities {α : Type} (ops : EntityOps α) (m : GAState α) :
    (fitnessStep ops m).entities = m.entities := rfl

/-- The statistics pass always re-establishes the cache-consistency
invariant on the state it returns. -/
theorem fitnessStep_consistent {α : Type} (ops : EntityOps α) (m : GAState α) :
    Consistent ops (fitnessStep ops m) := by
  have hsnd := statsLoop_snd ops.fitness m.entities 0
    (⟨0, 0, m.elite, m.felite⟩ : StatsAcc α)
  refine ⟨?_, ?_, ?_, rfl⟩
  · rw [fitnessStep_entities]
    exact fitnessStep_mean_eq ops m
  · rw [fitnessStep_entities]
    exact fitnessStep_std_eq ops m
  · rw [fitnessStep_entities]
    simp only [fitnessStep]
    rw [hsnd]

/-- Construction establishes the cache-consistency invariant (`std0` plays
no role in it). -/
theorem new_consistent {α : Type} (ops : EntityOps α) (n : ℕ) (g : ℕ → α) :
    Consistent ops (New ops n g) :=
  fitnessStep_consistent ops
    ⟨n, none, ⊥, (List.range n).map g, 0, 0, 0, 0, List.replicate n 0⟩

/-- Claim C8: each `Next` writes all `n` offspring into a separate buffer,
each slot a function of the pre-step state and its own draws only, then
swaps the buffer in and recomputes statistics and weights, so the
cache-consistency invariant holds after construction and after every
generation step. -/
theorem next_double_buffered {α : Type} [Inhabited α] [DecidableEq α]
    (ops : EntityOps α) (m : GAState α) (rs : ℕ → ℝ × ℝ × ℝ) (n : ℕ) (g : ℕ → α) :
    (Next ops m rs).entities = nextPop ops m rs ∧
    (nextPop ops m rs).length = m.n ∧
    (∀ i : ℕ, i < m.n → (nextPop ops m rs)[i]? = some (offspring ops m (rs i))) ∧
    Consistent ops (Next ops m rs) ∧
    Consistent ops (New ops n g) := by
  refine ⟨rfl, by simp [nextPop], ?_, fitnessStep_consistent ops _, new_consistent ops n g⟩
  intro i hi
  simp [nextPop, List.getElem?_map, List.getElem?_range, hi]

/-- Witness for claim C8: slot 0 of a concrete step is the offspring
computed from the pre-step state and the slot's own draws. -/
theorem next_double_buffered_witness :
    0 < mW3.n ∧ (nextPop opsW3 mW3 rsW3)[0]? = some (offspring opsW3 mW3 (rsW3 0)) := by
  refine ⟨by simp [mW3], ?_⟩
  exact (next_double_buffered opsW3 mW3 rsW3 1 fun _ => 0).2.2.1 0 (by simp [mW3])

/-- Phase x of the weighted scan: with `isx = true` the loop performs the
first-hit search of the claim, then continues in phase y with the re-based
target `fz' + d − w_x·r2`. -/
theorem s2loopW_phaseX {α : Type} :
    ∀ (ps : List (α × ℝ)) (fz d ry : ℝ) (x y : α) (wx wy : ℝ),
      s2loopW fz d ry true x y wx wy ps
        = match findHit fz ps with
          | none => (x, y, wx, wy)
          | some ((e, f), fz', rest) =>
              s2loopW (fz' + d - f * ry) d ry false e y f wy rest := by
  intro ps
  induction ps with
  | nil => intro fz d ry x y wx wy; simp [s2loopW, findHit]
  | cons p rest ih =>
    obtain ⟨e, f⟩ := p
    intro fz d ry x y wx wy
    rw [s2loopW, findHit]
    by_cases h : fz ≤ f
    · rw [if_pos h, if_pos h]
      simp
    · rw [if_neg h, if_neg h]
      exact ih (fz - f) d ry x y wx wy

/-- Phase y of the weighted scan: with `isx = false` the loop is exactly the
first-hit search, recording the hit and its weight. -/
theorem s2loopW_phaseY {α : Type} :
    ∀ (ps : List (α × ℝ)) (fz d ry : ℝ) (x y : α) (wx wy : ℝ),
      s2loopW fz d ry false x y wx wy ps
        = match findHit fz ps with
          | none => (x, y, wx, wy)
          | some ((e, f), _, _) => (x, e, wx, f) := by
  intro ps
  induction ps with
  | nil => intro fz d ry x y wx wy; simp [s2loopW, findHit]
  | cons p rest ih =>
    obtain ⟨e, f⟩ := p
    intro fz d ry x y wx wy
    rw [s2loopW, findHit]
    by_cases h : fz ≤ f
    · rw [if_pos h, if_pos h]
      simp
    · rw [if_neg h, if_neg h]
      exact ih (fz - f) d ry x y wx wy

/-- Claim C4 (amended): the weighted variant's `select2` implements exactly
the described algorithm — sort the two draws, select x at the first index
where the running remainder of target `fsum·r1` drops to or below that
index's weight, re-base the target by `+ fsum·(r2−r1) − w_x·r2`, continue
the same scan for y, and fall back to the first member for x and the last
for y when the scan ends unsatisfied. -/
theorem select2W_matches_description {α : Type} [Inhabited α] (ents : List α)
    (ws : List ℝ) (fsum rx ry : ℝ) :
    select2WFull ents ws fsum rx ry = select2Described ents ws fsum rx ry := by
  simp only [select2WFull, select2Described]
  rw [s2loopW_phaseX]
  cases h : findHit (fsum * (sortPair rx ry).1) (ents.zip ws) with
  | none => rfl
  | some v =>
    obtain ⟨⟨e, f⟩, fz, rest⟩ := v
    simp only []
    rw [s2loopW_phaseY]

/-- Counterexample to claim C4 as stated, on the ga.go variant: with
population `[0, 1]`, weights `[1/2, 1/2]`, `fsum = 1` and draws
`r1 = r2 = 0`, index 0 is the first hit, so the described algorithm selects
parents `(0, 1)`; but the code's phase test `x == entities[0]` is still
true after x selects the first member, so the second hit overwrites x and
y keeps its fallback value: the code returns `(1, 1)`. -/
theorem select2Go_overwrite_counterexample :
    select2Go [0, 1] [1 / 2, 1 / 2] 1 (0 : ℝ) 0 = ((1 : ℕ), (1 : ℕ)) ∧
    select2Described [0, 1] [1 / 2, 1 / 2] 1 (0 : ℝ) 0 = ((0 : ℕ), (1 : ℕ), 1 / 2, 1 / 2) := by
  constructor
  · norm_num [select2Go, s2loopGo, sortPair]
  · norm_num [select2Described, findHit, sortPair]

/-- If every scan position keeps the running remainder strictly above its
weight, the first-hit search fails. -/
theorem findHit_none {α : Type} :
    ∀ (ps : List (α × ℝ)) (fz : ℝ),
      (∀ k, (hk : k < ps.length) →
        (ps.get ⟨k, hk⟩).2 < scanRem fz (ps.map Prod.snd) k) →
      findHit fz ps = none := by
  intro ps
  induction ps with
  | nil => intro fz _; simp [findHit]
  | cons p rest ih =>
    obtain ⟨e, f⟩ := p
    intro fz h
    have h0 := h 0 (by simp)
    simp only [List.get, scanRem, List.map_cons, List.take_zero, List.sum_nil,
      sub_zero] at h0
    rw [findHit, if_neg (by linarith)]
    apply ih
    intro k hk
    have hs := h (k + 1) (by simpa using Nat.succ_lt_succ hk)
    simpa [scanRem, List.take_succ_cons, sub_sub] using hs

/-- Claim C9: if the weighted roulette scan ends without selecting either
parent, both parents fall back to the first and last members, the recorded
weights `wx` and `wy` are both 0, and the blend weight handed to
`Crossover` is the division `0 / (0 + 0)` — a zero denominator. -/
theorem select2W_fallback_weights {α : Type} [Inhabited α] (ents : List α)
    (ws : List ℝ) (fsum rx ry : ℝ)
    (h : ∀ k, (hk : k < (ents.zip ws).length) →
      ((ents.zip ws).get ⟨k, hk⟩).2
        < scanRem (fsum * (sortPair rx ry).1) ((ents.zip ws).map Prod.snd) k) :
    select2WFull ents ws fsum rx ry = (ents.headI, ents.getLastD default, 0, 0) ∧
    (select2W ents ws fsum rx ry).2.2 = 0 / (0 + 0) := by
  have hn := findHit_none (ents.zip ws) _ h
  have hfull : select2WFull ents ws fsum rx ry
      = (ents.headI, ents.getLastD default, 0, 0) := by
    simp only [select2WFull]
    rw [s2loopW_phaseX, hn]
  refine ⟨hfull, ?_⟩
  simp only [select2W, hfull]

/-- Witness for claim C9: a concrete scan in which no position is ever hit,
yielding the double fallback with zero recorded weights. -/
theorem select2W_fallback_weights_witness :
    select2WFull [(0 : ℕ), 1] [1, 1] 10 (1 / 2) (1 / 2) = (0, 1, 0, 0) ∧
    (select2W [(0 : ℕ), 1] [1, 1] 10 (1 / 2) (1 / 2)).2.2 = 0 / (0 + 0) := by
  apply select2W_fallback_weights
  intro k hk
  simp only [List.zip_cons_cons, List.zip_nil_right, List.length_cons,
    List.length_nil] at hk ⊢
  interval_cases k <;> norm_num [scanRem, sortPair, List.get]

end GA
